import Mathlib

/-!
Verification development for the typing-trainer repository.

The engine embedded here is `TypingFastCached` (client/src/TypingFastCached.jsx),
the component the application mounts for a selected problem.  Its typing state
consists of a React `useState` position (`pos`), per-character DOM spans holding
a `typedChar` dataset entry and a `correct`/`incorrect` class (the verdicts),
and refs `startTsRef` / `finishedRef`.

React semantics are modelled explicitly: during one key-event handler the
closure value of `pos` is the committed (render-time) value and never changes;
`setPos(v)` and `setPos(p => p + 1)` enqueue updates that are applied in order
after the handler returns; refs and DOM span mutations take effect immediately.
Newline characters are rendered as block spans without a ref, so no span exists
at a newline index (spansRef.current[i] stays undefined there), exactly as in
the component's render function.

The server's leaderboard endpoint (server/index.js) is embedded separately.
-/

namespace Typing

/-- JavaScript `Math.round` on a finite nonnegative value: round half up. -/
def jsRound (q : ℚ) : ℤ := ⌊q + 1 / 2⌋

/-- `calcWPM(charsCount, ms)` from TypingFastCached.jsx:
`words = charsCount / 5; minutes = ms / 60000;
return minutes > 0 ? Math.round(words / minutes) : 0`. -/
def calcWPM (charsCount ms : ℕ) : ℤ :=
  let words : ℚ := (charsCount : ℚ) / 5
  let minutes : ℚ := (ms : ℚ) / 60000
  if 0 < minutes then jsRound (words / minutes) else 0

/-- The CSS class state of one prompt-character span:
no class, `correct`, or `incorrect`. -/
inductive Cls where
  | blank
  | correct
  | incorrect
  deriving DecidableEq, Repr

/-- One rendered prompt-character span: its `dataset.typedChar`
(absent until a character is typed there) and its class. -/
structure Span where
  typedChar : Option Char
  cls : Cls
  deriving DecidableEq, Repr

/-- `spansRef.current[i]`: `none` when no span element exists at index `i`
(newline positions are rendered without a ref; indices past the prompt have
no element at all). -/
abbrev SpanSlot := Option Span

/-- The span array built by the component's render: one untouched span per
non-newline character, no span at newline indices. -/
def initSpans (chars : List Char) : List SpanSlot :=
  chars.map (fun c => if c = '\n' then none else some ⟨none, Cls.blank⟩)

/-- The finalized attempt object (fields relevant to the engine). -/
structure Attempt where
  wpm : ℤ
  accuracy : ℤ
  rawText : List Char
  durationMs : ℕ
  deriving DecidableEq, Repr

/-- Committed component state between key events: `pos` (useState),
the span array, `startTsRef`, `finishedRef`, plus instrumentation for the
submission collaborator: how many times `fetch("/api/attempts", ...)` ran
and the last attempt object built. -/
structure FCState where
  pos : ℕ
  spans : List SpanSlot
  startTs : Option ℕ
  finished : Bool
  submitted : ℕ
  lastAttempt : Option Attempt
  deriving DecidableEq, Repr

/-- Fresh state for a prompt (mount / problem change). -/
def initState (chars : List Char) : FCState :=
  { pos := 0
    spans := initSpans chars
    startTs := none
    finished := false
    submitted := 0
    lastAttempt := none }

/-- One queued `setPos` call: `setPos(v)` or `setPos(p => p + 1)`. -/
inductive PosUpdate where
  | replace (v : ℕ)
  | increment
  deriving DecidableEq, Repr

/-- React applies the queued state updates in order to the committed value. -/
def applyUpdates (p : ℕ) : List PosUpdate → ℕ
  | [] => p
  | PosUpdate.replace v :: us => applyUpdates v us
  | PosUpdate.increment :: us => applyUpdates (p + 1) us

/-- Mid-handler view of the component: `basePos` is the render-closure value
of `pos` (constant during the handler), the other fields are refs/DOM that
mutate immediately, and `queue` collects the pending `setPos` calls. -/
structure Handler where
  basePos : ℕ
  spans : List SpanSlot
  startTs : Option ℕ
  finished : Bool
  submitted : ℕ
  lastAttempt : Option Attempt
  queue : List PosUpdate
  deriving DecidableEq, Repr

/-- `spansRef.current[i]` lookup. -/
def spanAt (spans : List SpanSlot) (i : ℕ) : Option Span :=
  (spans[i]?).join

/-- `typedStr`: `spansRef.current.map(s => s && s.dataset.typedChar ?
s.dataset.typedChar : "").join("")` — spans without a typed character
(including missing newline spans) contribute the empty string. -/
def typedStr (spans : List SpanSlot) : List Char :=
  (spans.map (fun sl =>
    match sl with
    | some ⟨some c, _⟩ => [c]
    | _ => [])).flatten

/-- Number of spans currently carrying the `correct` class. -/
def countCorrect (spans : List SpanSlot) : ℕ :=
  spans.countP (fun sl =>
    match sl with
    | some sp => sp.cls = Cls.correct
    | none => false)

/-- `calcAccuracy(typedLen)` from TypingFastCached.jsx:
100 when nothing is typed, else `Math.round((correct / typedLen) * 100)`. -/
def calcAccuracy (spans : List SpanSlot) (typedLen : ℕ) : ℤ :=
  if typedLen = 0 then 100
  else jsRound (((countCorrect spans : ℚ) / (typedLen : ℚ)) * 100)

/-- The attempt object `finishIfNeeded` assembles on firing: duration from
`startTsRef` (0 when no start timestamp), the typed string joined from span
datasets, and wpm/accuracy from the metric helpers. -/
def finishAttempt (h : Handler) (now : ℕ) : Attempt :=
  let durationMs :=
    match h.startTs with
    | some t => now - t
    | none => 0
  let typed := typedStr h.spans
  { wpm := calcWPM typed.length durationMs
    accuracy := calcAccuracy h.spans typed.length
    rawText := typed
    durationMs := durationMs }

/-- `finishIfNeeded(now)`: guarded by `finishedRef`; compares the *closure*
value of `pos` against the prompt length; on firing sets `finishedRef`,
stores the report and submits the attempt (autoSubmit default). -/
def finishIfNeeded (chars : List Char) (h : Handler) (now : ℕ) : Handler :=
  if h.finished then h
  else if chars.length ≤ h.basePos then
    { h with
        finished := true
        submitted := h.submitted + 1
        lastAttempt := some (finishAttempt h now) }
  else h

/-- `writeChar(ch)`: no-op when finished; reads `idx = pos` from the render
closure; if no span exists at `idx` (past the end, or a newline position)
it enqueues `setPos(p => p + 1)`, otherwise it stores the typed char, sets
the class by comparison with the expected character, and enqueues
`setPos(idx + 1)`; in both branches it then calls `finishIfNeeded()`. -/
def writeChar (chars : List Char) (h : Handler) (ch : Char) (now : ℕ) : Handler :=
  if h.finished then h
  else
    let idx := h.basePos
    match spanAt h.spans idx with
    | none =>
      let h1 := { h with queue := h.queue ++ [PosUpdate.increment] }
      finishIfNeeded chars h1 now
    | some _ =>
      let cls := if chars[idx]? = some ch then Cls.correct else Cls.incorrect
      let h1 := { h with spans := h.spans.set idx (some ⟨some ch, cls⟩) }
      let h2 := { h1 with queue := h1.queue ++ [PosUpdate.replace (idx + 1)] }
      finishIfNeeded chars h2 now

/-- `fullReset()`: clears `finishedRef` and `startTsRef`, enqueues
`setPos(0)`, clears the report, and strips classes and dataset entries from
every existing span (missing spans stay missing). -/
def fullReset (h : Handler) : Handler :=
  { h with
      finished := false
      startTs := none
      lastAttempt := none
      spans := h.spans.map (fun sl => sl.map (fun _ => (⟨none, Cls.blank⟩ : Span)))
      queue := h.queue ++ [PosUpdate.replace 0] }

/-- The recognized input classes of `handleKeyDown`. -/
inductive Key where
  | printable (c : Char)
  | enter
  | tab
  | backspace
  | escape
  | pasteCombo
  | other
  deriving DecidableEq, Repr

/-- A key event together with the clock value `Date.now()` reads during it. -/
structure Event where
  key : Key
  now : ℕ
  deriving DecidableEq, Repr

/-- Open a handler over the committed state. -/
def mkHandler (s : FCState) : Handler :=
  { basePos := s.pos
    spans := s.spans
    startTs := s.startTs
    finished := s.finished
    submitted := s.submitted
    lastAttempt := s.lastAttempt
    queue := [] }

/-- Close the handler: React applies the queued `setPos` updates to the
committed position; refs and DOM mutations carry over. -/
def commit (h : Handler) : FCState :=
  { pos := applyUpdates h.basePos h.queue
    spans := h.spans
    startTs := h.startTs
    finished := h.finished
    submitted := h.submitted
    lastAttempt := h.lastAttempt }

/-- `handleKeyDown(e)` from TypingFastCached.jsx: paste shortcuts return
before anything else; every other key first sets `startTsRef` if unset, then
dispatches — Backspace (no-op at 0, else clear previous span and
`setPos(prev)`), Enter (`writeChar("\n")`), Tab (four `writeChar(" ")`
calls), printable (`writeChar(key)`), Escape (`fullReset()`), and all other
keys ignored. -/
def handleKeyDown (chars : List Char) (s : FCState) (e : Event) : FCState :=
  match e.key with
  | Key.pasteCombo => s
  | k =>
    let h0 :=
      { mkHandler s with
          startTs := match s.startTs with
            | none => some e.now
            | some t => some t }
    let h1 :=
      match k with
      | Key.backspace =>
        if h0.basePos = 0 then h0
        else
          let prev := h0.basePos - 1
          let hb :=
            match spanAt h0.spans prev with
            | some _ =>
              { h0 with spans := h0.spans.set prev (some ⟨none, Cls.blank⟩) }
            | none => h0
          { hb with queue := hb.queue ++ [PosUpdate.replace prev] }
      | Key.enter => writeChar chars h0 '\n' e.now
      | Key.tab =>
        let ha := writeChar chars h0 ' ' e.now
        let hb := writeChar chars ha ' ' e.now
        let hc := writeChar chars hb ' ' e.now
        writeChar chars hc ' ' e.now
      | Key.printable c => writeChar chars h0 c e.now
      | Key.escape => fullReset h0
      | Key.other => h0
      | Key.pasteCombo => h0
    commit h1

/-- One key event applied to the committed state. -/
def step (chars : List Char) (s : FCState) (e : Event) : FCState :=
  handleKeyDown chars s e

/-- A whole session: a fresh state for the prompt, then the event stream. -/
def runSession (chars : List Char) (events : List Event) : FCState :=
  events.foldl (step chars) (initState chars)

/-- A verdict slot counts as typed (not `untyped`) when its span exists and
carries a `typedChar` dataset entry. -/
def slotTyped (sl : SpanSlot) : Bool :=
  match sl with
  | some sp => sp.typedChar.isSome
  | none => false

/-- The number of verdicts whose status is not `untyped`. -/
def countTyped (spans : List SpanSlot) : ℕ :=
  spans.countP slotTyped

/-- Whether the verdict at index `i` is not `untyped`. -/
def typedAt (spans : List SpanSlot) (i : ℕ) : Bool :=
  match spans[i]? with
  | some sl => slotTyped sl
  | none => false

/-- Strengthened reachability invariant of the engine for prompts without
newlines: the span array mirrors the prompt, a span exists at every prompt
index, the typed verdicts are exactly those below `min pos length`, and the
position exceeds the length (by exactly one) only after completion fired. -/
def Inv (chars : List Char) (s : FCState) : Prop :=
  s.spans.length = chars.length ∧
  (∀ i, i < chars.length → (spanAt s.spans i).isSome = true) ∧
  (∀ i, typedAt s.spans i = true ↔ i < min s.pos chars.length) ∧
  s.pos ≤ chars.length + 1 ∧
  (s.pos = chars.length + 1 → s.finished = true)

/-- A stored attempt row on the server (server/index.js). -/
structure DBAttempt where
  user : String
  problemId : String
  wpm : ℤ
  accuracy : ℤ
  durationMs : ℕ
  createdAt : ℕ
  deriving DecidableEq, Repr

/-- The JS sort comparator `(a, b) => b.wpm - a.wpm || b.accuracy - a.accuracy`
as the corresponding ordering relation: `a` may precede `b` exactly when the
comparator is nonpositive. -/
def lbLe (a b : DBAttempt) : Bool :=
  decide (b.wpm < a.wpm ∨ (b.wpm = a.wpm ∧ b.accuracy ≤ a.accuracy))

/-- `GET /api/leaderboard` (server/index.js): filter the stored attempts to
the requested problem, sort with the comparator above, return the first 50. -/
def leaderboardQuery (attempts : List DBAttempt) (problemId : String) : List DBAttempt :=
  (((attempts.filter (fun a => decide (a.problemId = problemId))).mergeSort lbLe).take 50)

theorem jsRound_zero : jsRound 0 = 0 := by
  unfold jsRound
  norm_num

theorem finishIfNeeded_startTs (chars : List Char) (h : Handler) (now : ℕ) :
    (finishIfNeeded chars h now).startTs = h.startTs := by
  unfold finishIfNeeded
  split
  · rfl
  · split <;> rfl

theorem writeChar_startTs (chars : List Char) (h : Handler) (ch : Char) (now : ℕ) :
    (writeChar chars h ch now).startTs = h.startTs := by
  unfold writeChar
  split
  · rfl
  · dsimp only
    cases spanAt h.spans h.basePos <;> simp [finishIfNeeded_startTs]

theorem writeChar_of_finished (chars : List Char) (h : Handler) (ch : Char) (now : ℕ)
    (hf : h.finished = true) : writeChar chars h ch now = h := by
  unfold writeChar
  simp [hf]

/-- Claim C7: `calcWPM` computes `round((typedCharacterCount / 5) /
(elapsedMs / 60000))`, returns 0 whenever the elapsed time is zero or the
typed count is zero (the division-by-zero guard), and yields 5 for 25
characters in exactly 60000 ms. -/
theorem calcWPM_formula_and_guards :
    (∀ c ms : ℕ, calcWPM c ms = jsRound (((c : ℚ) / 5) / ((ms : ℚ) / 60000))) ∧
    (∀ c : ℕ, calcWPM c 0 = 0) ∧
    (∀ ms : ℕ, calcWPM 0 ms = 0) ∧
    calcWPM 25 60000 = 5 := by
  refine ⟨fun c ms => ?_, fun c => ?_, fun ms => ?_, ?_⟩
  · unfold calcWPM
    by_cases h : (0 : ℚ) < (ms : ℚ) / 60000
    · simp [h]
    · have hms : (ms : ℚ) / 60000 = 0 := le_antisymm (not_lt.mp h) (by positivity)
      rw [if_neg h, hms, div_zero, jsRound_zero]
  · norm_num [calcWPM]
  · unfold calcWPM
    by_cases h : (0 : ℚ) < (ms : ℚ) / 60000
    · simp [h, jsRound_zero]
    · simp [h]
  · norm_num [calcWPM, jsRound]

/-- Claim C1 (counterexample): on the one-character prompt `"a"`, typing the
correct character and then one more printable character reaches a state with
position 2 but only one non-untyped verdict, so the claimed invariant
`position = count(verdicts != untyped)` fails, and position exceeds the
prompt length. -/
theorem position_invariant_counterexample :
    (runSession ['a'] [⟨Key.printable 'a', 0⟩, ⟨Key.printable 'b', 0⟩]).pos = 2 ∧
    countTyped (runSession ['a'] [⟨Key.printable 'a', 0⟩, ⟨Key.printable 'b', 0⟩]).spans = 1 := by
  decide

/-- Claim C2 (code evaluation at the failing input): against the prompt
`"    x"` a single Tab event advances the position by exactly 1, not 4, and
leaves exactly one verdict non-untyped (one correct): each of the four
`writeChar(" ")` calls reads the same stale closure position, so all four
write index 0 and all four queued `setPos(idx + 1)` updates set position 1. -/
theorem tab_advances_one_not_four :
    (runSession "    x".toList [⟨Key.tab, 0⟩]).pos = 1 ∧
    countTyped (runSession "    x".toList [⟨Key.tab, 0⟩]).spans = 1 ∧
    countCorrect (runSession "    x".toList [⟨Key.tab, 0⟩]).spans = 1 ∧
    (runSession "    x".toList [⟨Key.tab, 0⟩]).finished = false := by
  decide

/-- Claim C5 (code evaluation at the failing input): typing exactly the
prompt `"a"` with no mistakes produces no finalized attempt at all — the
completion check inside the same event reads the stale closure position
(0, not 1), so `finished` stays false, nothing is submitted, and no report
is built. -/
theorem exact_typing_produces_no_attempt :
    (runSession ['a'] [⟨Key.printable 'a', 0⟩]).finished = false ∧
    (runSession ['a'] [⟨Key.printable 'a', 0⟩]).submitted = 0 ∧
    (runSession ['a'] [⟨Key.printable 'a', 0⟩]).lastAttempt = none ∧
    (runSession ['a'] [⟨Key.printable 'a', 0⟩]).pos = 1 := by
  decide

/-- Claim C6 (counterexample): an unrecognized key (e.g. an arrow key) as
the first event of a session sets `startTimestamp` to the current time,
contradicting the claim that unrecognized keys never set it. -/
theorem start_timestamp_counterexample :
    (step ['a'] (initState ['a']) ⟨Key.other, 7⟩).startTs = some 7 := by
  decide

/-- Claim C8 (counterexample): for the empty prompt the freshly loaded
session is not finished and has submitted nothing — completion is only ever
checked inside a key-event handler, so nothing completes on load. -/
theorem empty_prompt_not_finished_on_load :
    (initState []).finished = false ∧ (initState []).submitted = 0 ∧
    (initState []).lastAttempt = none := by
  decide

/-- Claim C8 (amended): an empty prompt completes on the first
key-event-driven write (here any printable key), not on load, and the
resulting attempt has `durationMs = 0` (the same event both starts and ends
the session), `accuracy = 100` and `wpm = 0`. -/
theorem empty_prompt_completes_on_first_key (c : Char) (t : ℕ) :
    (step [] (initState []) ⟨Key.printable c, t⟩).finished = true ∧
    (step [] (initState []) ⟨Key.printable c, t⟩).submitted = 1 ∧
    (step [] (initState []) ⟨Key.printable c, t⟩).lastAttempt =
      some { wpm := 0, accuracy := 100, rawText := [], durationMs := 0 } := by
  have hwpm : calcWPM 0 0 = 0 := by norm_num [calcWPM]
  simp [step, handleKeyDown, initState, initSpans, mkHandler, writeChar, spanAt,
        finishIfNeeded, finishAttempt, typedStr, calcAccuracy, commit, applyUpdates, hwpm]

/-- Claim C6 (amended): a blocked paste shortcut changes nothing; every
other key event — including Backspace at position zero and unrecognized
keys — sets `startTimestamp` to the current time when it is unset and
otherwise leaves it unchanged, except Escape, which always clears it; and
Backspace never changes the finished flag. -/
theorem start_timestamp_policy (chars : List Char) (s : FCState) (e : Event) :
    (e.key = Key.pasteCombo → step chars s e = s) ∧
    (e.key ≠ Key.pasteCombo → e.key ≠ Key.escape →
      (step chars s e).startTs =
        (match s.startTs with
         | none => some e.now
         | some t => some t)) ∧
    (e.key = Key.escape → (step chars s e).startTs = none) ∧
    (e.key = Key.backspace → (step chars s e).finished = s.finished) := by
  obtain ⟨k, now⟩ := e
  refine ⟨fun hk => ?_, fun hk1 hk2 => ?_, fun hk => ?_, fun hk => ?_⟩
  · subst hk
    rfl
  · cases k
    case pasteCombo => exact absurd rfl hk1
    case escape => exact absurd rfl hk2
    case printable c => simp [step, handleKeyDown, commit, mkHandler, writeChar_startTs]
    case enter => simp [step, handleKeyDown, commit, mkHandler, writeChar_startTs]
    case tab => simp [step, handleKeyDown, commit, mkHandler, writeChar_startTs]
    case other => simp [step, handleKeyDown, commit, mkHandler]
    case backspace =>
      simp only [step, handleKeyDown, commit, mkHandler]
      split
      · rfl
      · cases spanAt s.spans (s.pos - 1) <;> rfl
  · subst hk
    simp [step, handleKeyDown, commit, mkHandler, fullReset]
  · subst hk
    simp only [step, handleKeyDown, commit, mkHandler]
    split
    · rfl
    · cases spanAt s.spans (s.pos - 1) <;> rfl

/-- Claim C6 (witness for the amended theorem): instantiated on a fresh
session and a Backspace event at position zero. -/
theorem start_timestamp_policy_witness :
    (step ['a'] (initState ['a']) ⟨Key.backspace, 3⟩).startTs = some 3 ∧
    (step ['a'] (initState ['a']) ⟨Key.backspace, 3⟩).finished = (initState ['a']).finished := by
  have h := start_timestamp_policy ['a'] (initState ['a']) ⟨Key.backspace, 3⟩
  exact ⟨h.2.1 (by decide) (by decide), h.2.2.2 rfl⟩

/-- Claim C10: once `finished` is set, printable, Enter and Tab inputs leave
both the position and every verdict unchanged — `writeChar` returns
immediately while `finishedRef` is set, and those three branches only act
through `writeChar`. -/
theorem finished_freezes_typing (chars : List Char) (s : FCState) (c : Char) (now : ℕ)
    (hfin : s.finished = true) :
    ((step chars s ⟨Key.printable c, now⟩).pos = s.pos ∧
      (step chars s ⟨Key.printable c, now⟩).spans = s.spans) ∧
    ((step chars s ⟨Key.enter, now⟩).pos = s.pos ∧
      (step chars s ⟨Key.enter, now⟩).spans = s.spans) ∧
    ((step chars s ⟨Key.tab, now⟩).pos = s.pos ∧
      (step chars s ⟨Key.tab, now⟩).spans = s.spans) := by
  simp [step, handleKeyDown, commit, mkHandler, writeChar_of_finished, hfin, applyUpdates]

/-- Claim C10 (witness): instantiated on a completed session for the prompt
`"a"` and a subsequent printable keystroke. -/
theorem finished_freezes_typing_witness :
    (runSession ['a'] [⟨Key.printable 'a', 0⟩, ⟨Key.printable 'b', 0⟩]).finished = true ∧
    (step ['a'] (runSession ['a'] [⟨Key.printable 'a', 0⟩, ⟨Key.printable 'b', 0⟩])
        ⟨Key.printable 'c', 9⟩).pos =
      (runSession ['a'] [⟨Key.printable 'a', 0⟩, ⟨Key.printable 'b', 0⟩]).pos := by
  refine ⟨by decide, ?_⟩
  exact (finished_freezes_typing ['a']
    (runSession ['a'] [⟨Key.printable 'a', 0⟩, ⟨Key.printable 'b', 0⟩]) 'c' 9 (by decide)).1.1

theorem step_preserves_submission (chars : List Char) (s : FCState) (e : Event)
    (hfin : s.finished = true) (hesc : e.key ≠ Key.escape) :
    (step chars s e).submitted = s.submitted ∧ (step chars s e).finished = true := by
  obtain ⟨k, now⟩ := e
  cases k
  case escape => exact absurd rfl hesc
  case pasteCombo => exact ⟨rfl, hfin⟩
  case printable c =>
    simp [step, handleKeyDown, commit, mkHandler, writeChar_of_finished, hfin]
  case enter =>
    simp [step, handleKeyDown, commit, mkHandler, writeChar_of_finished, hfin]
  case tab =>
    simp [step, handleKeyDown, commit, mkHandler, writeChar_of_finished, hfin]
  case other =>
    simp [step, handleKeyDown, commit, mkHandler, hfin]
  case backspace =>
    simp only [step, handleKeyDown, commit, mkHandler]
    split
    · exact ⟨rfl, hfin⟩
    · cases spanAt s.spans (s.pos - 1) <;> exact ⟨rfl, hfin⟩

/-- Claim C4: once `finished` is set, no sequence of further key events
avoiding the explicit reset (Escape) ever submits again or rebuilds the
attempt — the submission counter is unchanged and `finished` stays set. -/
theorem no_double_submission (chars : List Char) (s : FCState) (events : List Event)
    (hfin : s.finished = true) (hesc : ∀ e ∈ events, e.key ≠ Key.escape) :
    (events.foldl (step chars) s).submitted = s.submitted ∧
    (events.foldl (step chars) s).finished = true := by
  induction events generalizing s with
  | nil => exact ⟨rfl, hfin⟩
  | cons e es ih =>
    have h1 := step_preserves_submission chars s e hfin (hesc e (List.mem_cons_self e es))
    have h2 := ih (step chars s e) h1.2 (fun x hx => hesc x (List.mem_cons_of_mem e hx))
    exact ⟨h2.1.trans h1.1, h2.2⟩

/-- Claim C4 (witness): a completed session for `"a"` followed by an arrow
key and a Backspace submits nothing further. -/
theorem no_double_submission_witness :
    (runSession ['a'] [⟨Key.printable 'a', 0⟩, ⟨Key.printable 'b', 0⟩]).finished = true ∧
    (([⟨Key.other, 5⟩, ⟨Key.backspace, 6⟩] : List Event).foldl (step ['a'])
        (runSession ['a'] [⟨Key.printable 'a', 0⟩, ⟨Key.printable 'b', 0⟩])).submitted =
      (runSession ['a'] [⟨Key.printable 'a', 0⟩, ⟨Key.printable 'b', 0⟩]).submitted := by
  exact ⟨by decide,
    (no_double_submission ['a'] (runSession ['a'] [⟨Key.printable 'a', 0⟩, ⟨Key.printable 'b', 0⟩])
      [⟨Key.other, 5⟩, ⟨Key.backspace, 6⟩] (by decide) (by decide)).1⟩

/-- Claim C3 (counterexample): with the prompt `"a"` fully typed (position
equals the prompt length), one more printable keystroke is not ignored: it
changes the position from 1 to 2 and flips `finished`, so the session state
is not left unchanged. -/
theorem overflow_keystroke_counterexample :
    (step ['a'] (runSession ['a'] [⟨Key.printable 'a', 0⟩]) ⟨Key.printable 'b', 0⟩).pos = 2 ∧
    (runSession ['a'] [⟨Key.printable 'a', 0⟩]).pos = 1 ∧
    (step ['a'] (runSession ['a'] [⟨Key.printable 'a', 0⟩]) ⟨Key.printable 'b', 0⟩).finished
        = true ∧
    (runSession ['a'] [⟨Key.printable 'a', 0⟩]).finished = false := by
  decide

/-- Claim C3 (amended): an overflow printable keystroke (position already at
the prompt length, session not finished) does not extend the verdict array —
the spans are untouched — but it does advance the position to length + 1,
fires completion and submits once. -/
theorem overflow_keystroke_behaviour (chars : List Char) (s : FCState) (c : Char) (now : ℕ)
    (hfin : s.finished = false) (hpos : s.pos = chars.length)
    (hlen : s.spans.length = chars.length) :
    (step chars s ⟨Key.printable c, now⟩).pos = chars.length + 1 ∧
    (step chars s ⟨Key.printable c, now⟩).finished = true ∧
    (step chars s ⟨Key.printable c, now⟩).spans = s.spans ∧
    (step chars s ⟨Key.printable c, now⟩).submitted = s.submitted + 1 := by
  have hnone : s.spans[chars.length]? = none := List.getElem?_eq_none (by omega)
  have hsp : spanAt s.spans chars.length = none := by simp [spanAt, hnone]
  simp [step, handleKeyDown, commit, mkHandler, writeChar, hfin, hsp, finishIfNeeded,
        hpos, applyUpdates]

/-- Claim C3 (witness for the amended theorem): instantiated on the prompt
`"a"` after typing its single character. -/
theorem overflow_keystroke_behaviour_witness :
    ((runSession ['a'] [⟨Key.printable 'a', 0⟩]).finished = false ∧
      (runSession ['a'] [⟨Key.printable 'a', 0⟩]).pos = 1) ∧
    (step ['a'] (runSession ['a'] [⟨Key.printable 'a', 0⟩]) ⟨Key.printable 'x', 4⟩).pos = 2 := by
  refine ⟨⟨by decide, by decide⟩, ?_⟩
  exact (overflow_keystroke_behaviour ['a'] (runSession ['a'] [⟨Key.printable 'a', 0⟩]) 'x' 4
    (by decide) (by decide) (by decide)).1

theorem typedAt_set_self (l : List SpanSlot) (i : ℕ) (hi : i < l.length) (a : SpanSlot) :
    typedAt (l.set i a) i = slotTyped a := by
  simp [typedAt, List.getElem?_set_self hi]

theorem typedAt_set_ne (l : List SpanSlot) (i j : ℕ) (h : i ≠ j) (a : SpanSlot) :
    typedAt (l.set i a) j = typedAt l j := by
  simp [typedAt, List.getElem?_set_ne h]

theorem typedAt_of_len_le (l : List SpanSlot) (i : ℕ) (h : l.length ≤ i) :
    typedAt l i = false := by
  simp [typedAt, List.getElem?_eq_none h]

theorem spanAt_set_self (l : List SpanSlot) (i : ℕ) (hi : i < l.length) (a : SpanSlot) :
    spanAt (l.set i a) i = a := by
  simp [spanAt, List.getElem?_set_self hi]

theorem spanAt_set_ne (l : List SpanSlot) (i j : ℕ) (h : i ≠ j) (a : SpanSlot) :
    spanAt (l.set i a) j = spanAt l j := by
  simp [spanAt, List.getElem?_set_ne h]

theorem spanAt_of_len_le (l : List SpanSlot) (i : ℕ) (h : l.length ≤ i) :
    spanAt l i = none := by
  simp [spanAt, List.getElem?_eq_none h]

theorem typedAt_cons_zero (a : SpanSlot) (l : List SpanSlot) :
    typedAt (a :: l) 0 = slotTyped a := by
  simp [typedAt]

theorem typedAt_cons_succ (a : SpanSlot) (l : List SpanSlot) (i : ℕ) :
    typedAt (a :: l) (i + 1) = typedAt l i := by
  simp [typedAt]

theorem countP_of_typedAt_iff (l : List SpanSlot) (k : ℕ) (hk : k ≤ l.length)
    (h : ∀ i, typedAt l i = true ↔ i < k) : l.countP slotTyped = k := by
  induction l generalizing k with
  | nil =>
    have : k = 0 := Nat.le_zero.mp (by simpa using hk)
    subst this
    rfl
  | cons a l ih =>
    cases k with
    | zero =>
      have ha : ¬ slotTyped a = true := by
        have h0 := h 0
        rw [typedAt_cons_zero] at h0
        simpa using h0
      have hl : l.countP slotTyped = 0 := by
        refine ih 0 (Nat.zero_le _) (fun i => ?_)
        have hi := h (i + 1)
        rw [typedAt_cons_succ] at hi
        simpa using hi
      simp [List.countP_cons, ha, hl]
    | succ k =>
      have ha : slotTyped a = true := by
        have h0 := (h 0).mpr (Nat.succ_pos k)
        rwa [typedAt_cons_zero] at h0
      have hl : l.countP slotTyped = k := by
        refine ih k (by simpa using hk) (fun i => ?_)
        have hi := h (i + 1)
        rw [typedAt_cons_succ] at hi
        simpa [Nat.succ_lt_succ_iff] using hi
      simp [List.countP_cons, ha, hl]

theorem inv_ext (chars : List Char) {s s' : FCState} (hs : Inv chars s)
    (h1 : s'.pos = s.pos) (h2 : s'.spans = s.spans) (h3 : s'.finished = s.finished) :
    Inv chars s' := by
  unfold Inv at hs ⊢
  rw [h1, h2, h3]
  exact hs

theorem inv_write_mid (chars : List Char) (s : FCState) (hs : Inv chars s)
    (hlt : s.pos < chars.length) (v : Span) (hv : v.typedChar.isSome = true)
    {s' : FCState} (h1 : s'.pos = s.pos + 1)
    (h2 : s'.spans = s.spans.set s.pos (some v)) (h3 : s'.finished = false) :
    Inv chars s' := by
  obtain ⟨hlen, hsome, hiff, hle, hfin⟩ := hs
  have hposlen : s.pos < s.spans.length := by omega
  refine ⟨?_, ?_, ?_, ?_, ?_⟩
  · rw [h2, List.length_set, hlen]
  · intro i hi
    rw [h2]
    by_cases hij : s.pos = i
    · subst hij
      rw [spanAt_set_self _ _ hposlen]
      rfl
    · rw [spanAt_set_ne _ _ _ hij]
      exact hsome i hi
  · intro i
    rw [h1, h2]
    by_cases hij : s.pos = i
    · subst hij
      rw [typedAt_set_self _ _ hposlen]
      exact iff_of_true (by simp [slotTyped, hv]) (by omega)
    · rw [typedAt_set_ne _ _ _ hij, hiff i]
      omega
  · omega
  · omega

theorem inv_overflow (chars : List Char) (s : FCState) (hs : Inv chars s)
    (heq : s.pos = chars.length) {s' : FCState} (h1 : s'.pos = chars.length + 1)
    (h2 : s'.spans = s.spans) (h3 : s'.finished = true) :
    Inv chars s' := by
  obtain ⟨hlen, hsome, hiff, hle, hfin⟩ := hs
  refine ⟨?_, ?_, ?_, ?_, ?_⟩
  · rw [h2, hlen]
  · intro i hi
    rw [h2]
    exact hsome i hi
  · intro i
    rw [h1, h2, hiff i]
    omega
  · omega
  · intro _
    exact h3

theorem inv_backspace_mid (chars : List Char) (s : FCState) (hs : Inv chars s)
    (hpos : 0 < s.pos) (hle2 : s.pos ≤ chars.length) {s' : FCState}
    (h1 : s'.pos = s.pos - 1)
    (h2 : s'.spans = s.spans.set (s.pos - 1) (some ⟨none, Cls.blank⟩)) :
    Inv chars s' := by
  obtain ⟨hlen, hsome, hiff, hle, hfin⟩ := hs
  have hprevlen : s.pos - 1 < s.spans.length := by omega
  refine ⟨?_, ?_, ?_, ?_, ?_⟩
  · rw [h2, List.length_set, hlen]
  · intro i hi
    rw [h2]
    by_cases hij : s.pos - 1 = i
    · subst hij
      rw [spanAt_set_self _ _ hprevlen]
      rfl
    · rw [spanAt_set_ne _ _ _ hij]
      exact hsome i hi
  · intro i
    rw [h1, h2]
    by_cases hij : s.pos - 1 = i
    · subst hij
      rw [typedAt_set_self _ _ hprevlen]
      exact iff_of_false (by simp [slotTyped]) (by omega)
    · rw [typedAt_set_ne _ _ _ hij, hiff i]
      omega
  · omega
  · omega

theorem inv_backspace_over (chars : List Char) (s : FCState) (hs : Inv chars s)
    (heq : s.pos = chars.length + 1) {s' : FCState}
    (h1 : s'.pos = chars.length) (h2 : s'.spans = s.spans) :
    Inv chars s' := by
  obtain ⟨hlen, hsome, hiff, hle, hfin⟩ := hs
  refine ⟨?_, ?_, ?_, ?_, ?_⟩
  · rw [h2, hlen]
  · intro i hi
    rw [h2]
    exact hsome i hi
  · intro i
    rw [h1, h2, hiff i]
    omega
  · omega
  · omega

theorem inv_reset (chars : List Char) (s : FCState) (hs : Inv chars s)
    {s' : FCState} (h1 : s'.pos = 0)
    (h2 : s'.spans = s.spans.map (fun sl => sl.map (fun _ => (⟨none, Cls.blank⟩ : Span)))) :
    Inv chars s' := by
  obtain ⟨hlen, hsome, hiff, hle, hfin⟩ := hs
  refine ⟨?_, ?_, ?_, ?_, ?_⟩
  · rw [h2, List.length_map, hlen]
  · intro i hi
    rw [h2]
    have := hsome i hi
    unfold spanAt at this ⊢
    rw [List.getElem?_map]
    cases hsl : s.spans[i]? with
    | none => rw [hsl] at this; simp at this
    | some sl =>
      rw [hsl] at this
      cases sl with
      | none => simp at this
      | some sp => simp
  · intro i
    rw [h1, h2]
    unfold typedAt
    rw [List.getElem?_map]
    cases hsl : s.spans[i]? with
    | none => simp
    | some sl =>
      cases sl <;> simp [slotTyped]
  · omega
  · omega

theorem step_enter_eq_printable (chars : List Char) (s : FCState) (now : ℕ) :
    step chars s ⟨Key.enter, now⟩ = step chars s ⟨Key.printable '\n', now⟩ := rfl

theorem step_printable_mid_proj (chars : List Char) (s : FCState) (c : Char) (now : ℕ)
    (hf : s.finished = false) (sp : Span) (hsp : spanAt s.spans s.pos = some sp)
    (hlt : s.pos < chars.length) :
    (step chars s ⟨Key.printable c, now⟩).pos = s.pos + 1 ∧
    (step chars s ⟨Key.printable c, now⟩).spans =
      s.spans.set s.pos
        (some ⟨some c, if chars[s.pos]? = some c then Cls.correct else Cls.incorrect⟩) ∧
    (step chars s ⟨Key.printable c, now⟩).finished = false := by
  have hnle : ¬ chars.length ≤ s.pos := by omega
  simp [step, handleKeyDown, commit, mkHandler, writeChar, finishIfNeeded, hf, hsp, hnle,
        applyUpdates]

theorem step_printable_over_proj (chars : List Char) (s : FCState) (c : Char) (now : ℕ)
    (hf : s.finished = false) (hsp : spanAt s.spans s.pos = none)
    (hge : chars.length ≤ s.pos) :
    (step chars s ⟨Key.printable c, now⟩).pos = s.pos + 1 ∧
    (step chars s ⟨Key.printable c, now⟩).spans = s.spans ∧
    (step chars s ⟨Key.printable c, now⟩).finished = true := by
  simp [step, handleKeyDown, commit, mkHandler, writeChar, finishIfNeeded, hf, hsp, hge,
        applyUpdates]

theorem step_tab_mid_proj (chars : List Char) (s : FCState) (now : ℕ)
    (hf : s.finished = false) (sp : Span) (hsp : spanAt s.spans s.pos = some sp)
    (hlt : s.pos < chars.length) (hsl : s.pos < s.spans.length) :
    (step chars s ⟨Key.tab, now⟩).pos = s.pos + 1 ∧
    (step chars s ⟨Key.tab, now⟩).spans =
      s.spans.set s.pos
        (some ⟨some ' ', if chars[s.pos]? = some ' ' then Cls.correct else Cls.incorrect⟩) ∧
    (step chars s ⟨Key.tab, now⟩).finished = false := by
  have hnle : ¬ chars.length ≤ s.pos := by omega
  have hset : spanAt (s.spans.set s.pos
      (some ⟨some ' ', if chars[s.pos]? = some ' ' then Cls.correct else Cls.incorrect⟩))
      s.pos =
      some ⟨some ' ', if chars[s.pos]? = some ' ' then Cls.correct else Cls.incorrect⟩ :=
    spanAt_set_self _ _ hsl _
  simp [step, handleKeyDown, commit, mkHandler, writeChar, finishIfNeeded, hf, hsp, hnle,
        hset, List.set_set, applyUpdates]

theorem step_tab_over_proj (chars : List Char) (s : FCState) (now : ℕ)
    (hf : s.finished = false) (hsp : spanAt s.spans s.pos = none)
    (hge : chars.length ≤ s.pos) :
    (step chars s ⟨Key.tab, now⟩).pos = s.pos + 1 ∧
    (step chars s ⟨Key.tab, now⟩).spans = s.spans ∧
    (step chars s ⟨Key.tab, now⟩).finished = true := by
  simp [step, handleKeyDown, commit, mkHandler, writeChar, finishIfNeeded, hf, hsp, hge,
        applyUpdates]

theorem inv_step (chars : List Char) (hnl : '\n' ∉ chars) (s : FCState) (e : Event)
    (hs : Inv chars s) : Inv chars (step chars s e) := by
  obtain ⟨k, now⟩ := e
  have hlen : s.spans.length = chars.length := hs.1
  cases k with
  | pasteCombo => exact hs
  | other =>
    exact inv_ext chars hs rfl rfl rfl
  | escape =>
    exact inv_reset chars s hs rfl rfl
  | backspace =>
    by_cases h0 : s.pos = 0
    · refine inv_ext chars hs ?_ ?_ ?_ <;>
        simp [step, handleKeyDown, commit, mkHandler, h0, applyUpdates]
    · by_cases hov : s.pos = chars.length + 1
      · have hsp : spanAt s.spans chars.length = none := by
          apply spanAt_of_len_le
          omega
        refine inv_backspace_over chars s hs hov ?_ ?_ <;>
          simp [step, handleKeyDown, commit, mkHandler, h0, hsp, applyUpdates, hov]
      · have hle2 : s.pos ≤ chars.length := by
          have h4 := hs.2.2.2.1
          omega
        have hsome := hs.2.1 (s.pos - 1) (by omega)
        obtain ⟨sp, hsp⟩ := Option.isSome_iff_exists.mp hsome
        refine inv_backspace_mid chars s hs (by omega) hle2 ?_ ?_ <;>
          simp [step, handleKeyDown, commit, mkHandler, h0, hsp, applyUpdates]
  | printable c =>
    by_cases hf : s.finished = true
    · refine inv_ext chars hs ?_ ?_ ?_ <;>
        simp [step, handleKeyDown, commit, mkHandler, writeChar_of_finished, hf, applyUpdates]
    · have hf' : s.finished = false := by simpa using hf
      have hle2 : s.pos ≤ chars.length := by
        have h4 := hs.2.2.2.1
        rcases Nat.lt_or_ge s.pos (chars.length + 1) with h | h
        · omega
        · have h5 := hs.2.2.2.2 (by omega)
          rw [hf'] at h5
          exact absurd h5 (by simp)
      rcases Nat.lt_or_ge s.pos chars.length with hlt | hge
      · have hsome := hs.2.1 s.pos hlt
        obtain ⟨sp, hsp⟩ := Option.isSome_iff_exists.mp hsome
        obtain ⟨hp, hspn, hfin⟩ := step_printable_mid_proj chars s c now hf' sp hsp hlt
        exact inv_write_mid chars s hs hlt
          ⟨some c, if chars[s.pos]? = some c then Cls.correct else Cls.incorrect⟩
          rfl hp hspn hfin
      · have heq : s.pos = chars.length := by omega
        have hsp : spanAt s.spans s.pos = none := by
          apply spanAt_of_len_le
          omega
        obtain ⟨hp, hspn, hfin⟩ := step_printable_over_proj chars s c now hf' hsp hge
        exact inv_overflow chars s hs heq (by rw [hp, heq]) hspn hfin
  | enter =>
    rw [step_enter_eq_printable]
    by_cases hf : s.finished = true
    · refine inv_ext chars hs ?_ ?_ ?_ <;>
        simp [step, handleKeyDown, commit, mkHandler, writeChar_of_finished, hf, applyUpdates]
    · have hf' : s.finished = false := by simpa using hf
      have hle2 : s.pos ≤ chars.length := by
        have h4 := hs.2.2.2.1
        rcases Nat.lt_or_ge s.pos (chars.length + 1) with h | h
        · omega
        · have h5 := hs.2.2.2.2 (by omega)
          rw [hf'] at h5
          exact absurd h5 (by simp)
      rcases Nat.lt_or_ge s.pos chars.length with hlt | hge
      · have hsome := hs.2.1 s.pos hlt
        obtain ⟨sp, hsp⟩ := Option.isSome_iff_exists.mp hsome
        obtain ⟨hp, hspn, hfin⟩ := step_printable_mid_proj chars s '\n' now hf' sp hsp hlt
        exact inv_write_mid chars s hs hlt
          ⟨some '\n', if chars[s.pos]? = some '\n' then Cls.correct else Cls.incorrect⟩
          rfl hp hspn hfin
      · have heq : s.pos = chars.length := by omega
        have hsp : spanAt s.spans s.pos = none := by
          apply spanAt_of_len_le
          omega
        obtain ⟨hp, hspn, hfin⟩ := step_printable_over_proj chars s '\n' now hf' hsp hge
        exact inv_overflow chars s hs heq (by rw [hp, heq]) hspn hfin
  | tab =>
    by_cases hf : s.finished = true
    · refine inv_ext chars hs ?_ ?_ ?_ <;>
        simp [step, handleKeyDown, commit, mkHandler, writeChar_of_finished, hf, applyUpdates]
    · have hf' : s.finished = false := by simpa using hf
      have hle2 : s.pos ≤ chars.length := by
        have h4 := hs.2.2.2.1
        rcases Nat.lt_or_ge s.pos (chars.length + 1) with h | h
        · omega
        · have h5 := hs.2.2.2.2 (by omega)
          rw [hf'] at h5
          exact absurd h5 (by simp)
      rcases Nat.lt_or_ge s.pos chars.length with hlt | hge
      · have hsome := hs.2.1 s.pos hlt
        obtain ⟨sp, hsp⟩ := Option.isSome_iff_exists.mp hsome
        obtain ⟨hp, hspn, hfin⟩ :=
          step_tab_mid_proj chars s now hf' sp hsp hlt (by omega)
        exact inv_write_mid chars s hs hlt
          ⟨some ' ', if chars[s.pos]? = some ' ' then Cls.correct else Cls.incorrect⟩
          rfl hp hspn hfin
      · have heq : s.pos = chars.length := by omega
        have hsp : spanAt s.spans s.pos = none := by
          apply spanAt_of_len_le
          omega
        obtain ⟨hp, hspn, hfin⟩ := step_tab_over_proj chars s now hf' hsp hge
        exact inv_overflow chars s hs heq (by rw [hp, heq]) hspn hfin

theorem inv_initState (chars : List Char) (hnl : '\n' ∉ chars) :
    Inv chars (initState chars) := by
  refine ⟨?_, ?_, ?_, ?_, ?_⟩
  · simp [initState, initSpans]
  · intro i hi
    have hci : chars[i]? = some chars[i] := List.getElem?_eq_getElem hi
    have hmem : chars[i] ∈ chars := List.getElem_mem hi
    have hne : ¬ chars[i] = '\n' := fun hcc => hnl (hcc ▸ hmem)
    simp [initState, initSpans, spanAt, List.getElem?_map, hci, hne]
  · intro i
    have hut : typedAt (initState chars).spans i = false := by
      unfold typedAt
      simp only [initState, initSpans, List.getElem?_map]
      cases hci : chars[i]? with
      | none => simp
      | some c =>
        by_cases hc : c = '\n' <;> simp [hc, slotTyped]
    exact iff_of_false (by simp [hut]) (by simp [initState])
  · simp [initState]
  · intro h
    simp [initState] at h

theorem inv_runSession (chars : List Char) (hnl : '\n' ∉ chars) (events : List Event) :
    Inv chars (runSession chars events) := by
  unfold runSession
  suffices h : ∀ s, Inv chars s → Inv chars (events.foldl (step chars) s) from
    h _ (inv_initState chars hnl)
  induction events with
  | nil => exact fun s hs => hs
  | cons e es ih => exact fun s hs => ih _ (inv_step chars hnl s e hs)

/-- Claim C1 (amended): for prompts without newline characters, every
reachable state satisfies `position = count(verdicts != untyped)` except
after the completion-firing overflow keystroke, where the position is
exactly the prompt length plus one while all verdicts are typed; in
particular, for prompts with newlines or after overflow the original
invariant does not hold, but the typed verdicts are always exactly those
below `min position length`. -/
theorem position_matches_typed_count (chars : List Char) (hnl : '\n' ∉ chars)
    (events : List Event) :
    (runSession chars events).pos = countTyped (runSession chars events).spans ∨
      ((runSession chars events).finished = true ∧
        (runSession chars events).pos = chars.length + 1 ∧
        countTyped (runSession chars events).spans = chars.length) := by
  obtain ⟨hlen, hsome, hiff, hle, hfin⟩ := inv_runSession chars hnl events
  have hcount : countTyped (runSession chars events).spans =
      min (runSession chars events).pos chars.length := by
    unfold countTyped
    exact countP_of_typedAt_iff _ _ (by omega) hiff
  rcases Nat.lt_or_ge (runSession chars events).pos (chars.length + 1) with h | h
  · left
    rw [hcount]
    omega
  · right
    have hp : (runSession chars events).pos = chars.length + 1 := by omega
    exact ⟨hfin hp, hp, by rw [hcount]; omega⟩

/-- Claim C1 (witness for the amended theorem): instantiated on the prompt
`"ab"` after one correct keystroke. -/
theorem position_matches_typed_count_witness :
    ('\n' ∉ ['a', 'b']) ∧
    ((runSession ['a', 'b'] [⟨Key.printable 'a', 0⟩]).pos =
        countTyped (runSession ['a', 'b'] [⟨Key.printable 'a', 0⟩]).spans ∨
      ((runSession ['a', 'b'] [⟨Key.printable 'a', 0⟩]).finished = true ∧
        (runSession ['a', 'b'] [⟨Key.printable 'a', 0⟩]).pos = 3 ∧
        countTyped (runSession ['a', 'b'] [⟨Key.printable 'a', 0⟩]).spans = 2)) :=
  ⟨by decide, position_matches_typed_count ['a', 'b'] (by decide) [⟨Key.printable 'a', 0⟩]⟩

theorem lbLe_trans : ∀ (a b c : DBAttempt), lbLe a b → lbLe b c → lbLe a c := by
  intro a b c hab hbc
  simp only [lbLe, decide_eq_true_eq] at hab hbc ⊢
  omega

theorem lbLe_total : ∀ (a b : DBAttempt), lbLe a b || lbLe b a := by
  intro a b
  simp only [lbLe, Bool.or_eq_true, decide_eq_true_eq]
  omega

/-- Claim C9: the leaderboard query returns at most 50 rows, every returned
row belongs to the requested problem, and the result is sorted by `wpm`
descending with ties broken by `accuracy` descending. -/
theorem leaderboard_query_spec (attempts : List DBAttempt) (problemId : String) :
    (leaderboardQuery attempts problemId).length ≤ 50 ∧
    (∀ a, a ∈ leaderboardQuery attempts problemId → a.problemId = problemId) ∧
    (leaderboardQuery attempts problemId).Pairwise
      (fun a b => b.wpm < a.wpm ∨ (b.wpm = a.wpm ∧ b.accuracy ≤ a.accuracy)) := by
  refine ⟨?_, ?_, ?_⟩
  · unfold leaderboardQuery
    rw [List.length_take]
    exact min_le_left _ _
  · intro a ha
    unfold leaderboardQuery at ha
    have h1 := (List.take_sublist 50 _).subset ha
    have h2 := List.mem_mergeSort.mp h1
    have h3 := List.of_mem_filter h2
    simpa using h3
  · unfold leaderboardQuery
    have hs := List.sorted_mergeSort lbLe_trans lbLe_total
      (attempts.filter (fun a => decide (a.problemId = problemId)))
    have ht := List.Pairwise.sublist (List.take_sublist 50 _) hs
    refine ht.imp ?_
    intro a b hab
    simpa [lbLe] using hab

/-- Claim C9 (witness): instantiated on a two-row store, discharging the
membership hypothesis for the returned row. -/
theorem leaderboard_query_spec_witness :
    (leaderboardQuery
        [⟨"u", "p1", 10, 90, 1000, 0⟩, ⟨"v", "p2", 20, 95, 1000, 0⟩] "p1").length ≤ 50 ∧
    (⟨"u", "p1", 10, 90, 1000, 0⟩ : DBAttempt).problemId = "p1" := by
  refine ⟨(leaderboard_query_spec
    [⟨"u", "p1", 10, 90, 1000, 0⟩, ⟨"v", "p2", 20, 95, 1000, 0⟩] "p1").1, ?_⟩
  refine (leaderboard_query_spec
    [⟨"u", "p1", 10, 90, 1000, 0⟩, ⟨"v", "p2", 20, 95, 1000, 0⟩] "p1").2.1 _ ?_
  unfold leaderboardQuery
  simp [List.filter]

end Typing
